import Mathlib

/-!
Verification of quick-snippet-overlay against its specification.

The development shallowly embeds two modules of the repository:

* src/variable_handler.py: detection of template variables of the form
  \x7b\x7bname\x7d\x7d / \x7b\x7bname:default\x7d\x7d in snippet content
  (function detect_variables, built on the Python regex scan
  (?=\{\{(.+?)\}\}) with overlapping positions), and their substitution
  (function substitute_variables, built on re.sub with the pattern
  \{\{name(?::[^}]*)?\}\}).

* src/search_engine.py: fuzzy search with weighted multi-field scoring
  (SearchEngine.search and SearchEngine._calculate_snippet_score).  The
  external library similarity fuzz.partial_ratio is kept abstract as a
  parameter pr; every theorem quantifies over it.

Strings are modelled as List Char; Python floats as rationals.
-/

/-- Python str.strip() whitespace predicate, restricted to the ASCII
whitespace characters (space, tab, newline, carriage return, vertical
tab, form feed). -/
def isPySpace (c : Char) : Bool :=
  c = ' ' || c = '\t' || c = '\n' || c = '\r' || c = Char.ofNat 11 || c = Char.ofNat 12

/-- Python str.strip(): remove leading and trailing whitespace. -/
def pyStrip (s : List Char) : List Char :=
  ((s.dropWhile isPySpace).reverse.dropWhile isPySpace).reverse

/-- Python str.lower(), character-wise. -/
def lowerStr (s : List Char) : List Char :=
  s.map Char.toLower

/-- A character admitted by the validation regex [a-zA-Z0-9_]. -/
def isWordChar (c : Char) : Bool :=
  (('a' ≤ c && c ≤ 'z') || ('A' ≤ c && c ≤ 'Z') || ('0' ≤ c && c ≤ '9') || c = '_')

/-- The validation re.match(r'[a-zA-Z0-9_]+$', name): nonempty and all
characters alphanumeric or underscore. -/
def validName (s : List Char) : Bool :=
  !s.isEmpty && s.all isWordChar

/-- Semantics of the non-greedy capture (.+?)\}\} of the detection regex:
given the text following an opening brace pair, return the shortest
nonempty newline-free prefix x such that the input is
x ++ [right brace, right brace] ++ rest, together with rest.  (Python
. does not match a newline, which is why a newline aborts the scan.) -/
def findClose : List Char → Option (List Char × List Char)
  | [] => none
  | c :: cs =>
    if c = '\n' then none
    else
      match cs with
      | '}' :: '}' :: rest => some ([c], rest)
      | _ => (findClose cs).map (fun p => (c :: p.1, p.2))

/-- Semantics of re.findall(r'(?=\{\{(.+?)\}\})', content): at every
position of the content (overlap permitted, since the whole pattern is a
zero-width lookahead), if the text starts with two opening braces and
findClose succeeds on the remainder, record the captured group.  The scan
advances one character at a time. -/
def scanMatches : List Char → List (List Char)
  | [] => []
  | c :: cs =>
    match c, cs with
    | '{', '{' :: t =>
      (match findClose t with
       | some p => p.1 :: scanMatches cs
       | none => scanMatches cs)
    | _, _ => scanMatches cs

/-- Python match.split(':', 1): the part before the first colon, and the
part after it when a colon occurs. -/
def splitFirstColon : List Char → List Char × Option (List Char)
  | [] => ([], none)
  | c :: cs =>
    if c = ':' then ([], some cs)
    else
      let p := splitFirstColon cs
      (c :: p.1, p.2)

/-- A detected variable declaration: its name and its optional default. -/
structure VarDecl where
  name : List Char
  default : Option (List Char)
deriving DecidableEq, Repr

/-- Parsing of one captured group of the scan, as done in the loop body of
detect_variables: split at the first colon, strip the name part, and keep
it only when the name passes validation. -/
def parseDecl (m : List Char) : Option VarDecl :=
  let p := splitFirstColon m
  let nm := pyStrip p.1
  if validName nm then some ⟨nm, p.2⟩ else none

/-- The deduplicating loop of detect_variables, carrying the seen_names
set (first occurrence wins, later occurrences of a name are dropped). -/
def detectAux : List (List Char) → List (List Char) → List VarDecl
  | [], _ => []
  | m :: ms, seen =>
    match parseDecl m with
    | none => detectAux ms seen
    | some v =>
      if v.name ∈ seen then detectAux ms seen
      else v :: detectAux ms (v.name :: seen)

/-- detect_variables from src/variable_handler.py. -/
def detect_variables (content : List Char) : List VarDecl :=
  detectAux (scanMatches content) []

/-- Python dict lookup values[name], the dict modelled as an association
list with distinct keys. -/
def lookupVal : List (List Char × List Char) → List Char → Option (List Char)
  | [], _ => none
  | (k, v) :: rest, n => if k = n then some v else lookupVal rest n

/-- The resolution loop of substitute_variables: provided value first,
else declared default, else a ValueError naming the variable.  The error
aborts the whole computation, exactly as the Python raise does. -/
def resolveAll (values : List (List Char × List Char)) :
    List VarDecl → Except (List Char) (List (List Char × List Char))
  | [] => Except.ok []
  | v :: vs =>
    match lookupVal values v.name with
    | some x => (resolveAll values vs).map (fun subs => (v.name, x) :: subs)
    | none =>
      match v.default with
      | some d => (resolveAll values vs).map (fun subs => (v.name, d) :: subs)
      | none => Except.error v.name

/-- Literal-text matching: chopLit p s strips the literal p from the front
of s. -/
def chopLit : List Char → List Char → Option (List Char)
  | [], s => some s
  | _, [] => none
  | p :: ps, c :: cs => if p = c then chopLit ps cs else none

/-- Recognise a closing brace pair at the front, returning the text after
it. -/
def twoBraces : List Char → Option (List Char)
  | c1 :: c2 :: r => if c1 = '}' ∧ c2 = '}' then some r else none
  | _ => none

/-- One attempted match, at the current position, of the substitution
regex \{\{name(?::[^}]*)?\}\}: two opening braces, the literal name, then
either an immediate closing brace pair, or a colon followed by the maximal
run of non-closing-brace characters and a closing brace pair.  Returns
the text after the match. -/
def matchVarAt (name : List Char) (s : List Char) : Option (List Char) :=
  match s with
  | c1 :: c2 :: rest =>
    if c1 = '{' ∧ c2 = '{' then
      match chopLit name rest with
      | some (c :: t) =>
        if c = ':' then twoBraces (t.dropWhile (fun x => x != '}'))
        else twoBraces (c :: t)
      | some [] => none
      | none => none
    else none
  | _ => none

/-- The left-to-right non-overlapping scan of re.sub, with explicit fuel
(one unit per character of the current text; every step consumes at least
one character, so the initial fuel below is always sufficient). -/
def subAllF : Nat → List Char → List Char → List Char → List Char
  | 0, _, _, s => s
  | _ + 1, _, _, [] => []
  | fuel + 1, name, repl, c :: cs =>
    match matchVarAt name (c :: cs) with
    | some rest => repl ++ subAllF fuel name repl rest
    | none => c :: subAllF fuel name repl cs

/-- re.sub of the substitution pattern for one variable over the whole
text, replacing every match by repl. -/
def subAll (name repl : List Char) (s : List Char) : List Char :=
  subAllF s.length name repl s

/-- The final substitution loop: one re.sub pass per resolved variable, in
declaration order (Python dict insertion order). -/
def applySubs : List (List Char × List Char) → List Char → List Char
  | [], s => s
  | (n, r) :: rest, s => applySubs rest (subAll n r s)

/-- substitute_variables from src/variable_handler.py.  The ValueError is
modelled as the error branch of Except carrying the offending variable
name. -/
def substitute_variables (content : List Char)
    (values : List (List Char × List Char)) : Except (List Char) (List Char) :=
  match resolveAll values (detect_variables content) with
  | Except.error n => Except.error n
  | Except.ok subs => Except.ok (applySubs subs content)

deriving instance DecidableEq for Except

/-- A snippet record, with the four searchable fields of
src/snippet_manager.py used by the search engine. -/
structure Snippet where
  name : List Char
  description : List Char
  tags : List (List Char)
  content : List Char
deriving DecidableEq, Repr

/-- Field weight constant WEIGHT_NAME of src/search_engine.py. -/
def WEIGHT_NAME : ℚ := 3

/-- Field weight constant WEIGHT_DESCRIPTION of src/search_engine.py. -/
def WEIGHT_DESCRIPTION : ℚ := 2

/-- Field weight constant WEIGHT_TAGS of src/search_engine.py. -/
def WEIGHT_TAGS : ℚ := 2

/-- Field weight constant WEIGHT_CONTENT of src/search_engine.py. -/
def WEIGHT_CONTENT : ℚ := 1

/-- Python max over a nonempty list of numbers (0 on the empty list,
which the code never reaches). -/
def maxQ : List ℚ → ℚ
  | [] => 0
  | x :: xs => xs.foldl max x

/-- Python round(x, 2): round to two decimal places. -/
def round2 (x : ℚ) : ℚ :=
  (round (x * 100) : ℤ) / 100

/-- SearchEngine._calculate_snippet_score from src/search_engine.py,
parametrised by the external similarity pr (fuzz.partial_ratio).  A field
participates only when truthy (nonempty); the tags score is the maximum
partial ratio over the individual lower-cased tags; the weighted scores
are averaged over the weights of the participating fields and rounded to
two decimals. -/
def calcScore (pr : List Char → List Char → ℚ) (s : Snippet) (q : List Char) : ℚ :=
  let scores : List ℚ :=
    (if s.name ≠ [] then [pr q (lowerStr s.name) * WEIGHT_NAME] else []) ++
    (if s.description ≠ [] then [pr q (lowerStr s.description) * WEIGHT_DESCRIPTION] else []) ++
    (if s.tags ≠ [] then
      (let tagScores := s.tags.map (fun t => pr q (lowerStr t))
       if tagScores ≠ [] then [maxQ tagScores * WEIGHT_TAGS] else []) else []) ++
    (if s.content ≠ [] then [pr q (lowerStr s.content) * WEIGHT_CONTENT] else [])
  if scores = [] then 0
  else
    let totalWeight : ℚ :=
      (if s.name ≠ [] then WEIGHT_NAME else 0) +
      (if s.description ≠ [] then WEIGHT_DESCRIPTION else 0) +
      (if s.tags ≠ [] then WEIGHT_TAGS else 0) +
      (if s.content ≠ [] then WEIGHT_CONTENT else 0)
    let weightedScore := if 0 < totalWeight then scores.sum / totalWeight else 0
    round2 weightedScore

/-- One search result entry, the dict with snippet and score keys. -/
structure ResultEntry where
  snippet : Snippet
  score : ℚ
deriving DecidableEq, Repr

/-- The descending-score order used by results.sort(key=..., reverse=True). -/
def scoreGe (a b : ResultEntry) : Prop :=
  b.score ≤ a.score

instance : DecidableRel scoreGe := fun a b =>
  inferInstanceAs (Decidable (b.score ≤ a.score))

instance : IsTotal ResultEntry scoreGe :=
  ⟨fun a b => (le_total b.score a.score)⟩

instance : IsTrans ResultEntry scoreGe :=
  ⟨fun _ _ _ h1 h2 => le_trans h2 h1⟩

/-- The per-snippet loop of SearchEngine.search, threading the snippet
sequence through explicitly: the first component is the stored sequence
as it stands when the loop has run (the loop only reads it), the second
the accumulated results in iteration order (appended when
score >= threshold). -/
def searchSteps (pr : List Char → List Char → ℚ) (q : List Char) (threshold : ℤ) :
    List Snippet → List Snippet × List ResultEntry
  | [] => ([], [])
  | s :: rest =>
    let sc := calcScore pr s q
    let step := searchSteps pr q threshold rest
    (s :: step.1, if (threshold : ℚ) ≤ sc then ⟨s, sc⟩ :: step.2 else step.2)

/-- The engine object: it stores the snippet sequence by reference. -/
structure SearchEngineState where
  snippets : List Snippet
deriving DecidableEq

/-- SearchEngine.search from src/search_engine.py, returning the result
list together with the engine state after the call.  An empty or
whitespace-only query returns immediately; otherwise the query is
stripped and lower-cased, each snippet is scored and filtered against the
threshold, and the results are sorted by score descending (Python
list.sort, a stable sort). -/
def searchRun (pr : List Char → List Char → ℚ) (e : SearchEngineState)
    (query : List Char) (threshold : ℤ) : List ResultEntry × SearchEngineState :=
  if query = [] ∨ pyStrip query = [] then ([], e)
  else
    let q := lowerStr (pyStrip query)
    let step := searchSteps pr q threshold e.snippets
    (List.insertionSort scoreGe step.2, ⟨step.1⟩)

/-- The result list of SearchEngine.search. -/
def search (pr : List Char → List Char → ℚ) (snippets : List Snippet)
    (query : List Char) (threshold : ℤ) : List ResultEntry :=
  (searchRun pr ⟨snippets⟩ query threshold).1

/-- The score as the specification words it: the sum, over the non-empty
fields, of the partial-substring similarity between the query and the
lower-cased field times the field weight (tags scored as the maximum
similarity over the individual tags), divided by the sum of the weights
of the non-empty fields only, rounded to two decimals; 0 when no field
is non-empty. -/
def specScore (pr : List Char → List Char → ℚ) (s : Snippet) (q : List Char) : ℚ :=
  if s.name = [] ∧ s.description = [] ∧ s.tags = [] ∧ s.content = [] then 0
  else
    round2
      (((if s.name ≠ [] then pr q (lowerStr s.name) * WEIGHT_NAME else 0) +
        (if s.description ≠ [] then pr q (lowerStr s.description) * WEIGHT_DESCRIPTION else 0) +
        (if s.tags ≠ [] then maxQ (s.tags.map (fun t => pr q (lowerStr t))) * WEIGHT_TAGS else 0) +
        (if s.content ≠ [] then pr q (lowerStr s.content) * WEIGHT_CONTENT else 0)) /
       ((if s.name ≠ [] then WEIGHT_NAME else 0) +
        (if s.description ≠ [] then WEIGHT_DESCRIPTION else 0) +
        (if s.tags ≠ [] then WEIGHT_TAGS else 0) +
        (if s.content ≠ [] then WEIGHT_CONTENT else 0)))

/-- C1: for every record and every query, the score computed by the
search engine equals the weighted average described by the spec: the sum
over the non-empty fields of similarity times weight (the tags field
scored by the maximum similarity over its tags), divided by the sum of
the weights of the non-empty fields, rounded to two decimal places, and
0 when the record has no non-empty field.  Quantified over every
similarity function pr standing for fuzz.partial_ratio. -/
theorem claim_C1_weighted_average_score
    (pr : List Char → List Char → ℚ) (s : Snippet) (q : List Char) :
    calcScore pr s q = specScore pr s q := by
  rcases s with ⟨n, d, tg, c⟩
  by_cases hn : n = [] <;> by_cases hd : d = [] <;> by_cases ht : tg = [] <;>
    by_cases hc : c = [] <;>
    simp [calcScore, specScore, hn, hd, ht, hc, WEIGHT_NAME, WEIGHT_DESCRIPTION,
      WEIGHT_TAGS, WEIGHT_CONTENT] <;>
    norm_num <;>
    (congr 1) <;> ring

theorem searchSteps_results (pr : List Char → List Char → ℚ) (q : List Char)
    (t : ℤ) (l : List Snippet) :
    (searchSteps pr q t l).2 =
      l.filterMap (fun s =>
        if (t : ℚ) ≤ calcScore pr s q then some ⟨s, calcScore pr s q⟩ else none) := by
  induction l with
  | nil => rfl
  | cons s rest ih =>
    by_cases h : (t : ℚ) ≤ calcScore pr s q <;> simp [searchSteps, h, ih]

theorem mem_searchSteps_results (pr : List Char → List Char → ℚ) (q : List Char)
    (t : ℤ) (l : List Snippet) (e : ResultEntry) :
    e ∈ (searchSteps pr q t l).2 ↔
      e.snippet ∈ l ∧ e.score = calcScore pr e.snippet q ∧ (t : ℚ) ≤ e.score := by
  rw [searchSteps_results, List.mem_filterMap]
  constructor
  · rintro ⟨a, ha, hao⟩
    by_cases hcond : (t : ℚ) ≤ calcScore pr a q
    · rw [if_pos hcond] at hao
      cases hao
      exact ⟨ha, rfl, hcond⟩
    · rw [if_neg hcond] at hao
      cases hao
  · rintro ⟨h1, h2, h3⟩
    refine ⟨e.snippet, h1, ?_⟩
    rw [if_pos (h2 ▸ h3), ← h2]

theorem search_eq_sort (pr : List Char → List Char → ℚ) (snippets : List Snippet)
    (query : List Char) (t : ℤ) (hq : pyStrip query ≠ []) :
    search pr snippets query t =
      List.insertionSort scoreGe
        (searchSteps pr (lowerStr (pyStrip query)) t snippets).2 := by
  have hq0 : query ≠ [] := by
    intro h
    apply hq
    rw [h]
    rfl
  simp [search, searchRun, hq, hq0]

/-- C2: for a non-whitespace query, a record appears in the search result
iff its computed score reaches the threshold; every entry carries its
snippet's score; the result list is sorted by score descending; and the
result is the empty list when no record qualifies, in particular for zero
records.  Quantified over every similarity function pr. -/
theorem claim_C2_threshold_filter_and_sort
    (pr : List Char → List Char → ℚ) (snippets : List Snippet)
    (query : List Char) (threshold : ℤ) (hq : pyStrip query ≠ []) :
    (∀ s ∈ snippets,
        ((threshold : ℚ) ≤ calcScore pr s (lowerStr (pyStrip query)) ↔
          ∃ e ∈ search pr snippets query threshold,
            e.snippet = s ∧ e.score = calcScore pr s (lowerStr (pyStrip query)))) ∧
    (∀ e ∈ search pr snippets query threshold,
        e.snippet ∈ snippets ∧
        e.score = calcScore pr e.snippet (lowerStr (pyStrip query)) ∧
        (threshold : ℚ) ≤ e.score) ∧
    (∀ i : Nat, ∀ h1 : i < (search pr snippets query threshold).length,
        ∀ h2 : i + 1 < (search pr snippets query threshold).length,
        ((search pr snippets query threshold).get ⟨i + 1, h2⟩).score ≤
          ((search pr snippets query threshold).get ⟨i, h1⟩).score) ∧
    ((∀ s ∈ snippets, ¬ (threshold : ℚ) ≤ calcScore pr s (lowerStr (pyStrip query))) →
        search pr snippets query threshold = []) ∧
    (snippets = [] → search pr snippets query threshold = []) := by
  have hs := search_eq_sort pr snippets query threshold hq
  have hmem : ∀ e : ResultEntry, e ∈ search pr snippets query threshold ↔
      e ∈ (searchSteps pr (lowerStr (pyStrip query)) threshold snippets).2 := by
    intro e
    rw [hs]
    exact List.mem_insertionSort scoreGe
  refine ⟨?_, ?_, ?_, ?_, ?_⟩
  · intro s hsmem
    constructor
    · intro hsc
      exact ⟨⟨s, calcScore pr s (lowerStr (pyStrip query))⟩,
        (hmem _).mpr ((mem_searchSteps_results pr _ threshold snippets _).mpr
          ⟨hsmem, rfl, hsc⟩), rfl, rfl⟩
    · rintro ⟨e, he, hes, hescore⟩
      have h3 := ((mem_searchSteps_results pr _ threshold snippets e).mp
        ((hmem e).mp he)).2.2
      rw [hescore] at h3
      exact h3
  · intro e he
    exact (mem_searchSteps_results pr _ threshold snippets e).mp ((hmem e).mp he)
  · intro i h1 h2
    have hsorted : List.Sorted scoreGe (search pr snippets query threshold) := by
      rw [hs]
      exact List.sorted_insertionSort scoreGe _
    exact hsorted.rel_get_of_lt (Fin.mk_lt_mk.mpr (Nat.lt_succ_self i))
  · intro hall
    rw [hs, searchSteps_results]
    rw [List.filterMap_eq_nil_iff.mpr (fun a ha => if_neg (hall a ha))]
    rfl
  · intro hnil
    subst hnil
    rw [hs]
    rfl

/-- C2 witness: concrete instance with one snippet, a constant
similarity and threshold 0. -/
theorem claim_C2_witness :
    (∀ s ∈ [(⟨"n".toList, [], [], "c".toList⟩ : Snippet)],
        ((0 : ℤ) ≤ calcScore (fun _ _ => 50) s (lowerStr (pyStrip "q".toList)) ↔
          ∃ e ∈ search (fun _ _ => 50) [⟨"n".toList, [], [], "c".toList⟩] "q".toList 0,
            e.snippet = s ∧
            e.score = calcScore (fun _ _ => 50) s (lowerStr (pyStrip "q".toList)))) ∧
    (∀ e ∈ search (fun _ _ => 50) [⟨"n".toList, [], [], "c".toList⟩] "q".toList 0,
        e.snippet ∈ [(⟨"n".toList, [], [], "c".toList⟩ : Snippet)] ∧
        e.score = calcScore (fun _ _ => 50) e.snippet (lowerStr (pyStrip "q".toList)) ∧
        ((0 : ℤ) : ℚ) ≤ e.score) ∧
    (∀ i : Nat,
        ∀ h1 : i < (search (fun _ _ => 50) [⟨"n".toList, [], [], "c".toList⟩] "q".toList 0).length,
        ∀ h2 : i + 1 <
          (search (fun _ _ => 50) [⟨"n".toList, [], [], "c".toList⟩] "q".toList 0).length,
        ((search (fun _ _ => 50) [⟨"n".toList, [], [], "c".toList⟩] "q".toList 0).get
            ⟨i + 1, h2⟩).score ≤
          ((search (fun _ _ => 50) [⟨"n".toList, [], [], "c".toList⟩] "q".toList 0).get
            ⟨i, h1⟩).score) ∧
    ((∀ s ∈ [(⟨"n".toList, [], [], "c".toList⟩ : Snippet)],
        ¬ ((0 : ℤ) : ℚ) ≤ calcScore (fun _ _ => 50) s (lowerStr (pyStrip "q".toList))) →
        search (fun _ _ => 50) [⟨"n".toList, [], [], "c".toList⟩] "q".toList 0 = []) ∧
    ([(⟨"n".toList, [], [], "c".toList⟩ : Snippet)] = [] →
        search (fun _ _ => 50) [⟨"n".toList, [], [], "c".toList⟩] "q".toList 0 = []) :=
  claim_C2_threshold_filter_and_sort (fun _ _ => 50)
    [⟨"n".toList, [], [], "c".toList⟩] "q".toList 0 (by decide)

/-- C8: when the query is empty or whitespace-only, search returns the
empty list immediately, for every record collection and threshold. -/
theorem claim_C8_empty_query_short_circuit
    (pr : List Char → List Char → ℚ) (snippets : List Snippet)
    (query : List Char) (threshold : ℤ) (hq : pyStrip query = []) :
    search pr snippets query threshold = [] := by
  simp [search, searchRun, hq]

/-- C8 witness: a whitespace-only query on a nonempty collection. -/
theorem claim_C8_empty_query_short_circuit_witness :
    search (fun _ _ => 50) [⟨"n".toList, [], [], "c".toList⟩] "   ".toList 60 = [] :=
  claim_C8_empty_query_short_circuit (fun _ _ => 50)
    [⟨"n".toList, [], [], "c".toList⟩] "   ".toList 60 (by decide)

theorem searchSteps_fst (pr : List Char → List Char → ℚ) (q : List Char)
    (t : ℤ) (l : List Snippet) : (searchSteps pr q t l).1 = l := by
  induction l with
  | nil => rfl
  | cons s rest ih => simp [searchSteps, ih]

/-- C9: a call to search leaves the engine state untouched: the stored
snippet sequence after the call is the one stored before, record for
record, field for field, in the same order. -/
theorem claim_C9_search_does_not_mutate
    (pr : List Char → List Char → ℚ) (e : SearchEngineState)
    (query : List Char) (threshold : ℤ) :
    (searchRun pr e query threshold).2 = e := by
  by_cases h : query = [] ∨ pyStrip query = []
  · simp [searchRun, h]
  · simp [searchRun, h, searchSteps_fst]

/-- Keep, for each name, only the first declaration carrying it: the
deduplication as the specification words it (first-wins, later
occurrences never re-append and never override the recorded default). -/
def keepFirstByName : List VarDecl → List VarDecl
  | [] => []
  | v :: vs => v :: keepFirstByName (vs.filter (fun w => decide (w.name ≠ v.name)))
termination_by l => l.length
decreasing_by
  exact Nat.lt_succ_of_le (List.length_filter_le _ _)

theorem keepFirstByName_nil : keepFirstByName [] = [] := by
  rw [keepFirstByName]

theorem keepFirstByName_cons (v : VarDecl) (vs : List VarDecl) :
    keepFirstByName (v :: vs) =
      v :: keepFirstByName (vs.filter (fun w => decide (w.name ≠ v.name))) := by
  rw [keepFirstByName]

theorem detectAux_eq_keepFirst (ms : List (List Char)) :
    ∀ seen : List (List Char),
      detectAux ms seen =
        keepFirstByName
          ((ms.filterMap parseDecl).filter (fun v => decide (v.name ∉ seen))) := by
  induction ms with
  | nil => intro seen; simp [detectAux, keepFirstByName_nil]
  | cons m ms ih =>
    intro seen
    cases hp : parseDecl m with
    | none => simp [detectAux, hp, ih]
    | some v =>
      by_cases hseen : v.name ∈ seen
      · simp [detectAux, hp, hseen, ih]
      · have hstep : detectAux (m :: ms) seen = v :: detectAux ms (v.name :: seen) := by
          simp [detectAux, hp, hseen]
        rw [hstep, ih (v.name :: seen)]
        have hv : decide (v.name ∉ seen) = true := by simp [hseen]
        have hfm : List.filterMap parseDecl (m :: ms) = v :: List.filterMap parseDecl ms := by
          simp [List.filterMap_cons, hp]
        rw [hfm, List.filter_cons, hv, if_pos rfl, keepFirstByName_cons]
        congr 1
        rw [List.filter_filter]
        congr 1
        apply List.filter_congr
        intro w _
        by_cases h1 : w.name = v.name <;> by_cases h2 : w.name ∈ seen <;>
          simp [h1, h2]

theorem detectAux_names_fresh (ms : List (List Char)) :
    ∀ seen : List (List Char),
      ((detectAux ms seen).map VarDecl.name).Nodup ∧
        ∀ n ∈ (detectAux ms seen).map VarDecl.name, n ∉ seen := by
  induction ms with
  | nil => intro seen; simp [detectAux]
  | cons m ms ih =>
    intro seen
    cases hp : parseDecl m with
    | none => simpa [detectAux, hp] using ih seen
    | some v =>
      by_cases hseen : v.name ∈ seen
      · simpa [detectAux, hp, hseen] using ih seen
      · have ihv := ih (v.name :: seen)
        refine ⟨?_, ?_⟩
        · simp only [detectAux, hp, if_neg hseen, List.map_cons, List.nodup_cons]
          refine ⟨fun hmem => ?_, ihv.1⟩
          exact (ihv.2 v.name hmem) (List.mem_cons_self _ _)
        · intro n hn
          simp only [detectAux, hp, if_neg hseen, List.map_cons, List.mem_cons] at hn
          cases hn with
          | inl h => rw [h]; exact hseen
          | inr h =>
            have := ihv.2 n h
            intro hcon
            exact this (List.mem_cons_of_mem _ hcon)

/-- Every name appearing in detect_variables output is distinct from
every other. -/
theorem detect_variables_names_nodup (content : List Char) :
    ((detect_variables content).map VarDecl.name).Nodup :=
  (detectAux_names_fresh (scanMatches content) []).1

/-- C5: detect_variables returns, in scan order (the order of first
occurrence in the content), the first declaration for each name: the
output equals the parsed match list with every later duplicate of an
already-declared name removed, so a later occurrence never re-appends
and never overrides the first occurrence's default; in particular the
declared names are pairwise distinct. -/
theorem claim_C5_first_wins_dedup (content : List Char) :
    detect_variables content =
      keepFirstByName ((scanMatches content).filterMap parseDecl) ∧
    ((detect_variables content).map VarDecl.name).Nodup := by
  constructor
  · have h := detectAux_eq_keepFirst (scanMatches content) []
    rw [detect_variables, h]
    congr 1
    rw [List.filter_congr (fun a _ => by simp : ∀ a ∈ (scanMatches content).filterMap parseDecl,
      (decide (a.name ∉ ([] : List (List Char)))) = true)]
    exact List.filter_true _
  · exact detect_variables_names_nodup content

/-- C6: the overlap-permitting non-greedy scan: on three opening braces
the outer single brace is literal text and the inner match is the one
declaration; a default may contain single braces and colons, and runs
to the first closing brace pair. -/
theorem claim_C6_overlapping_scan_examples :
    scanMatches "\x7b\x7b\x7bvar\x7d\x7d\x7d".toList =
      ["\x7bvar".toList, "var".toList] ∧
    detect_variables "\x7b\x7b\x7bvar\x7d\x7d\x7d".toList =
      [⟨"var".toList, none⟩] ∧
    detect_variables "Object: \x7b\x7bouter:\x7binner:value\x7d\x7d\x7d".toList =
      [⟨"outer".toList, some "\x7binner:value".toList⟩] := by
  refine ⟨by decide, by decide, by decide⟩

theorem chopLit_self (p : List Char) : ∀ r, chopLit p (p ++ r) = some r := by
  induction p with
  | nil => intro r; simp [chopLit]
  | cons c cs ih => intro r; simp [chopLit, ih]

theorem chopLit_length (p : List Char) :
    ∀ s r, chopLit p s = some r → r.length ≤ s.length := by
  induction p with
  | nil =>
    intro s r h
    simp only [chopLit, Option.some.injEq] at h
    rw [← h]
  | cons c cs ih =>
    intro s r h
    cases s with
    | nil => simp [chopLit] at h
    | cons c2 s2 =>
      simp only [chopLit] at h
      by_cases hc : c = c2
      · rw [if_pos hc] at h
        exact le_trans (ih s2 r h) (Nat.le_succ _)
      · rw [if_neg hc] at h
        cases h

theorem length_dropWhile_le2 (p : Char → Bool) (l : List Char) :
    (l.dropWhile p).length ≤ l.length := by
  induction l with
  | nil => simp [List.dropWhile]
  | cons c cs ih =>
    rw [List.dropWhile_cons]
    by_cases h : p c = true
    · rw [if_pos h]
      exact le_trans ih (Nat.le_succ _)
    · rw [if_neg h]

theorem twoBraces_some (s r : List Char) :
    twoBraces s = some r ↔ s = '}' :: '}' :: r := by
  cases s with
  | nil => simp [twoBraces]
  | cons c1 s1 =>
    cases s1 with
    | nil => simp [twoBraces]
    | cons c2 s2 =>
      by_cases h : c1 = '}' ∧ c2 = '}'
      · obtain ⟨h1, h2⟩ := h
        subst h1
        subst h2
        simp [twoBraces]
      · simp only [twoBraces, if_neg h]
        constructor
        · intro hn
          cases hn
        · intro heq
          injection heq with e1 rest1
          injection rest1 with e2 _
          exact absurd ⟨e1, e2⟩ h

theorem matchVarAt_some_length (name : List Char) :
    ∀ s r, matchVarAt name s = some r → r.length < s.length := by
  intro s r h
  cases s with
  | nil => simp [matchVarAt] at h
  | cons c1 s1 =>
    cases s1 with
    | nil => simp [matchVarAt] at h
    | cons c2 rest =>
      simp only [matchVarAt] at h
      by_cases hb : c1 = '{' ∧ c2 = '{'
      · rw [if_pos hb] at h
        cases hchop : chopLit name rest with
        | none => rw [hchop] at h; cases h
        | some rest2 =>
          rw [hchop] at h
          have hc := chopLit_length name rest rest2 hchop
          cases rest2 with
          | nil => cases h
          | cons c t =>
            simp only [] at h
            by_cases hcol : c = ':'
            · rw [if_pos hcol] at h
              have hdw := (twoBraces_some _ r).mp h
              have h1 := length_dropWhile_le2 (fun x => x != '}') t
              have h2 : (t.dropWhile (fun x => x != '}')).length = r.length + 2 := by
                rw [hdw]
                simp
              simp only [List.length_cons] at hc ⊢
              omega
            · rw [if_neg hcol] at h
              have hdw := (twoBraces_some _ r).mp h
              have h2 : t.length = r.length + 1 := by
                have := congrArg List.length hdw
                simpa using this
              simp only [List.length_cons] at hc ⊢
              omega
      · rw [if_neg hb] at h
        cases h

theorem subAllF_eq (name repl : List Char) (f : Nat) :
    ∀ s : List Char, s.length ≤ f → subAllF f name repl s = subAll name repl s := by
  induction f using Nat.strong_induction_on with
  | _ f ih =>
    intro s hs
    cases s with
    | nil =>
      cases f with
      | zero => rfl
      | succ f2 => rfl
    | cons c cs =>
      cases f with
      | zero => simp at hs
      | succ f2 =>
        simp only [List.length_cons] at hs
        rw [subAll]
        simp only [List.length_cons]
        simp only [subAllF]
        cases hm : matchVarAt name (c :: cs) with
        | some rest =>
          have hlen : rest.length < cs.length + 1 := by
            simpa using matchVarAt_some_length name (c :: cs) rest hm
          dsimp only
          rw [ih f2 (Nat.lt_succ_self f2) rest (by omega)]
          rw [ih cs.length (by omega) rest (by omega)]
        | none =>
          dsimp only
          rw [ih f2 (Nat.lt_succ_self f2) cs (by omega)]
          rw [ih cs.length (by omega) cs (le_refl _)]

theorem subAll_of_match (name repl : List Char) (s r : List Char)
    (h : matchVarAt name s = some r) :
    subAll name repl s = repl ++ subAll name repl r := by
  cases s with
  | nil =>
    have h2 : (none : Option (List Char)) = some r := h
    cases h2
  | cons c cs =>
    have hlen : r.length < cs.length + 1 := by
      simpa using matchVarAt_some_length name (c :: cs) r h
    rw [subAll]
    simp only [List.length_cons]
    simp only [subAllF]
    rw [h]
    dsimp only
    rw [subAllF_eq name repl cs.length r (by omega)]

theorem subAll_of_none (name repl : List Char) (c : Char) (cs : List Char)
    (h : matchVarAt name (c :: cs) = none) :
    subAll name repl (c :: cs) = c :: subAll name repl cs := by
  rw [subAll]
  simp only [List.length_cons]
  simp only [subAllF]
  rw [h]
  dsimp only
  rw [subAllF_eq name repl cs.length cs (le_refl _)]

/-- The text of one variable occurrence: either two opening braces, the
name and two closing braces, or with a colon and default text before the
closing braces. -/
def varOccur (name : List Char) : Option (List Char) → List Char
  | none => '{' :: '{' :: (name ++ ['}', '}'])
  | some d => '{' :: '{' :: (name ++ ':' :: (d ++ ['}', '}']))

theorem dropWhile_brace (v : List Char) :
    ∀ d : List Char, (∀ c ∈ d, c ≠ '}') →
      (d ++ '}' :: '}' :: v).dropWhile (fun x => x != '}') = '}' :: '}' :: v := by
  intro d
  induction d with
  | nil =>
    intro _
    simp [List.dropWhile_cons]
  | cons c cs ih =>
    intro h
    have hc : c ≠ '}' := h c (List.mem_cons_self _ _)
    simp only [List.cons_append, List.dropWhile_cons]
    rw [if_pos (by simp [hc])]
    exact ih (fun x hx => h x (List.mem_cons_of_mem _ hx))

theorem matchVarAt_occur (name v : List Char) (t : Option (List Char))
    (ht : ∀ d, t = some d → ∀ c ∈ d, c ≠ '}') :
    matchVarAt name (varOccur name t ++ v) = some v := by
  cases t with
  | none =>
    have hshape : varOccur name none ++ v = '{' :: '{' :: (name ++ ('}' :: '}' :: v)) := by
      simp [varOccur]
    rw [hshape]
    simp only [matchVarAt]
    rw [if_pos (⟨trivial, trivial⟩ : True ∧ True), chopLit_self name ('}' :: '}' :: v)]
    dsimp only
    rw [if_neg (by decide : ¬ ('}' : Char) = ':')]
    simp [twoBraces]
  | some d =>
    have hd := ht d rfl
    have hshape : varOccur name (some d) ++ v =
        '{' :: '{' :: (name ++ (':' :: (d ++ '}' :: '}' :: v))) := by
      simp [varOccur]
    rw [hshape]
    simp only [matchVarAt]
    rw [if_pos (⟨trivial, trivial⟩ : True ∧ True), chopLit_self name (':' :: (d ++ '}' :: '}' :: v))]
    dsimp only
    rw [if_pos rfl, dropWhile_brace v d hd]
    simp [twoBraces]

/-- C3 counterexample: a default text containing a closing brace.  The
single occurrence declares variable x with default text containing a
closing brace, substitution succeeds, and yet the occurrence is left
in place unchanged rather than replaced by the resolved value (the
substitution pattern forbids closing braces in the optional colon part,
while the detection scan does not). -/
theorem claim_C3_counterexample_brace_default :
    detect_variables "\x7b\x7bx:a\x7db\x7d\x7d".toList =
      [⟨"x".toList, some "a\x7db".toList⟩] ∧
    substitute_variables "\x7b\x7bx:a\x7db\x7d\x7d".toList [] =
      Except.ok "\x7b\x7bx:a\x7db\x7d\x7d".toList ∧
    "\x7b\x7bx:a\x7db\x7d\x7d".toList ≠ "a\x7db".toList := by
  refine ⟨by decide, by decide, by decide⟩

/-- C3 amended: one substitution pass for a variable replaces an
occurrence of the variable, of the form of two opening braces, the name
and a closing brace pair, or with a colon and default text free of
closing braces, by the replacement value, literally, and continues the
same pass behind it, provided the pattern does not match at any position
strictly inside the preceding text.  Iterating the conclusion covers
every occurrence, and all occurrences of the same variable receive the
same resolved value. -/
theorem claim_C3_amended_occurrence_replacement
    (name repl u v : List Char) (t : Option (List Char))
    (hu : ∀ i, i < u.length →
      matchVarAt name (List.drop i (u ++ (varOccur name t ++ v))) = none)
    (ht : ∀ d, t = some d → ∀ c ∈ d, c ≠ '}') :
    subAll name repl (u ++ (varOccur name t ++ v)) =
      u ++ (repl ++ subAll name repl v) := by
  induction u with
  | nil =>
    simp only [List.nil_append]
    exact subAll_of_match name repl _ v (matchVarAt_occur name v t ht)
  | cons c u1 ih =>
    have h0 := hu 0 (by simp)
    rw [List.drop_zero, List.cons_append] at h0
    rw [List.cons_append, subAll_of_none name repl c _ h0]
    rw [ih (fun i hi => by
      have h1 := hu (i + 1) (by simp only [List.length_cons]; omega)
      rw [List.cons_append, List.drop_succ_cons] at h1
      exact h1)]
    simp

/-- C3 amended witness: a concrete single pass replacing one occurrence
with a closing-brace-free default. -/
theorem claim_C3_amended_occurrence_replacement_witness :
    subAll "x".toList "V".toList
        ("A ".toList ++ (varOccur "x".toList (some "d".toList) ++ "B".toList)) =
      "A ".toList ++ ("V".toList ++ subAll "x".toList "V".toList "B".toList) :=
  claim_C3_amended_occurrence_replacement "x".toList "V".toList "A ".toList "B".toList
    (some "d".toList) (by decide) (by decide)

/-- The value a declared variable resolves to: the provided value when
the name is a key of values, else the declared default. -/
def resolvedValue (values : List (List Char × List Char)) (v : VarDecl) : List Char :=
  match lookupVal values v.name with
  | some x => x
  | none => v.default.getD []

theorem except_map_error {ε α β : Type} (f : α → β) (e : ε) :
    Except.map f (Except.error e) = Except.error e := rfl

theorem except_map_ok {ε α β : Type} (f : α → β) (a : α) :
    (Except.map f (Except.ok a) : Except ε β) = Except.ok (f a) := rfl

theorem resolveAll_error_mem (values : List (List Char × List Char)) :
    ∀ ds n, resolveAll values ds = Except.error n →
      ∃ v, v ∈ ds ∧ v.name = n ∧ lookupVal values v.name = none ∧ v.default = none := by
  intro ds
  induction ds with
  | nil =>
    intro n h
    cases h
  | cons v vs ih =>
    intro n h
    cases hl : lookupVal values v.name with
    | some x =>
      simp only [resolveAll, hl] at h
      cases hr : resolveAll values vs with
      | error m =>
        rw [hr, except_map_error] at h
        injection h with hm
        obtain ⟨w, hw1, hw2, hw3, hw4⟩ := ih m hr
        exact ⟨w, List.mem_cons_of_mem _ hw1, hm ▸ hw2, hw3, hw4⟩
      | ok subs =>
        rw [hr, except_map_ok] at h
        cases h
    | none =>
      cases hd : v.default with
      | some d =>
        simp only [resolveAll, hl, hd] at h
        cases hr : resolveAll values vs with
        | error m =>
          rw [hr, except_map_error] at h
          injection h with hm
          obtain ⟨w, hw1, hw2, hw3, hw4⟩ := ih m hr
          exact ⟨w, List.mem_cons_of_mem _ hw1, hm ▸ hw2, hw3, hw4⟩
        | ok subs =>
          rw [hr, except_map_ok] at h
          cases h
      | none =>
        simp only [resolveAll, hl, hd] at h
        injection h with hm
        exact ⟨v, List.mem_cons_self _ _, hm, hl, hd⟩

theorem resolveAll_error_of_mem (values : List (List Char × List Char)) :
    ∀ ds, (∃ v, v ∈ ds ∧ lookupVal values v.name = none ∧ v.default = none) →
      ∃ n, resolveAll values ds = Except.error n := by
  intro ds
  induction ds with
  | nil =>
    rintro ⟨v, hv, _, _⟩
    cases hv
  | cons v vs ih =>
    rintro ⟨w, hw, hw1, hw2⟩
    cases hl : lookupVal values v.name with
    | some x =>
      have hwvs : w ∈ vs := by
        cases List.mem_cons.mp hw with
        | inl he =>
          subst he
          rw [hl] at hw1
          cases hw1
        | inr h => exact h
      obtain ⟨n, hn⟩ := ih ⟨w, hwvs, hw1, hw2⟩
      exact ⟨n, by simp only [resolveAll, hl, hn, except_map_error]⟩
    | none =>
      cases hd : v.default with
      | some d =>
        have hwvs : w ∈ vs := by
          cases List.mem_cons.mp hw with
          | inl he =>
            subst he
            rw [hd] at hw2
            cases hw2
          | inr h => exact h
        obtain ⟨n, hn⟩ := ih ⟨w, hwvs, hw1, hw2⟩
        exact ⟨n, by simp only [resolveAll, hl, hd, hn, except_map_error]⟩
      | none =>
        exact ⟨v.name, by simp only [resolveAll, hl, hd]⟩

theorem resolveAll_ok_map (values : List (List Char × List Char)) :
    ∀ ds subs, resolveAll values ds = Except.ok subs →
      subs = ds.map (fun v => (v.name, resolvedValue values v)) := by
  intro ds
  induction ds with
  | nil =>
    intro subs h
    injection h with h2
    rw [← h2]
    rfl
  | cons v vs ih =>
    intro subs h
    cases hl : lookupVal values v.name with
    | some x =>
      simp only [resolveAll, hl] at h
      cases hr : resolveAll values vs with
      | error m =>
        rw [hr, except_map_error] at h
        cases h
      | ok subs2 =>
        rw [hr, except_map_ok] at h
        injection h with h2
        rw [← h2, ih subs2 hr, List.map_cons]
        congr 1
        simp [resolvedValue, hl]
    | none =>
      cases hd : v.default with
      | some d =>
        simp only [resolveAll, hl, hd] at h
        cases hr : resolveAll values vs with
        | error m =>
          rw [hr, except_map_error] at h
          cases h
        | ok subs2 =>
          rw [hr, except_map_ok] at h
          injection h with h2
          rw [← h2, ih subs2 hr, List.map_cons]
          congr 1
          simp [resolvedValue, hl, hd]
      | none =>
        simp only [resolveAll, hl, hd] at h
        cases h

theorem substitute_eq_resolve (content : List Char)
    (values : List (List Char × List Char)) :
    substitute_variables content values =
      (resolveAll values (detect_variables content)).map
        (fun subs => applySubs subs content) := by
  rw [substitute_variables]
  cases resolveAll values (detect_variables content) <;> rfl

/-- C4: substitute_variables resolves each declared variable to the
provided value when its name is a key of the values map, else to the
declared default; it fails exactly when some declared variable has
neither, the error names such a variable, and in the error case no
output is produced at all. -/
theorem claim_C4_resolution_and_error (content : List Char)
    (values : List (List Char × List Char)) :
    (∀ n, substitute_variables content values = Except.error n →
        ∃ v, v ∈ detect_variables content ∧ v.name = n ∧
          lookupVal values v.name = none ∧ v.default = none) ∧
    ((∃ v, v ∈ detect_variables content ∧ lookupVal values v.name = none ∧
        v.default = none) ↔
      ∃ n, substitute_variables content values = Except.error n) ∧
    (∀ subs, resolveAll values (detect_variables content) = Except.ok subs →
        subs = (detect_variables content).map
          (fun v => (v.name, resolvedValue values v)) ∧
        substitute_variables content values = Except.ok (applySubs subs content)) ∧
    (∀ n r, substitute_variables content values = Except.error n →
        substitute_variables content values ≠ Except.ok r) := by
  have hsub := substitute_eq_resolve content values
  refine ⟨?_, ⟨?_, ?_⟩, ?_, ?_⟩
  · intro n h
    rw [hsub] at h
    cases hr : resolveAll values (detect_variables content) with
    | error m =>
      rw [hr, except_map_error] at h
      injection h with hm
      exact hm ▸ resolveAll_error_mem values (detect_variables content) m hr
    | ok subs =>
      rw [hr, except_map_ok] at h
      cases h
  · rintro ⟨v, hv, h1, h2⟩
    obtain ⟨n, hn⟩ := resolveAll_error_of_mem values (detect_variables content)
      ⟨v, hv, h1, h2⟩
    exact ⟨n, by rw [hsub, hn, except_map_error]⟩
  · rintro ⟨n, hn⟩
    rw [hsub] at hn
    cases hr : resolveAll values (detect_variables content) with
    | error m =>
      obtain ⟨v, hv1, _, hv3, hv4⟩ := resolveAll_error_mem values _ m hr
      exact ⟨v, hv1, hv3, hv4⟩
    | ok subs =>
      rw [hr, except_map_ok] at hn
      cases hn
  · intro subs h
    exact ⟨resolveAll_ok_map values _ subs h, by rw [hsub, h, except_map_ok]⟩
  · intro n r he hok
    rw [he] at hok
    cases hok

theorem parseDecl_valid (m : List Char) (v : VarDecl) :
    parseDecl m = some v → validName v.name = true := by
  intro h
  simp only [parseDecl] at h
  by_cases hv : validName (pyStrip (splitFirstColon m).1) = true
  · rw [if_pos hv] at h
    injection h with h2
    rw [← h2]
    exact hv
  · rw [if_neg hv] at h
    cases h

theorem detectAux_valid (ms : List (List Char)) :
    ∀ seen v, v ∈ detectAux ms seen → validName v.name = true := by
  induction ms with
  | nil =>
    intro seen v hv
    cases hv
  | cons m ms ih =>
    intro seen v hv
    cases hp : parseDecl m with
    | none =>
      rw [detectAux, hp] at hv
      exact ih seen v hv
    | some w =>
      simp only [detectAux, hp] at hv
      by_cases hseen : w.name ∈ seen
      · rw [if_pos hseen] at hv
        exact ih seen v hv
      · rw [if_neg hseen] at hv
        cases List.mem_cons.mp hv with
        | inl he => exact he ▸ parseDecl_valid m w hp
        | inr he => exact ih _ v he

/-- C7 counterexample: an invalid-name occurrence inside another
variable's default text.  The scan yields the invalid match app-name,
which is dropped from the declarations, but the substitution pass for
the declared variable a matches across it, so the occurrence is not
left untouched in the output (the output Z no longer contains it). -/
theorem claim_C7_counterexample_overlapping_occurrence :
    "app-name".toList ∈ scanMatches "\x7b\x7ba:x\x7b\x7bapp-name\x7d\x7d".toList ∧
    validName "app-name".toList = false ∧
    detect_variables "\x7b\x7ba:x\x7b\x7bapp-name\x7d\x7d".toList =
      [⟨"a".toList, some "x\x7b\x7bapp-name".toList⟩] ∧
    substitute_variables "\x7b\x7ba:x\x7b\x7bapp-name\x7d\x7d".toList
      [("a".toList, "Z".toList)] = Except.ok "Z".toList ∧
    ¬ "\x7b\x7bapp-name\x7d\x7d".toList <:+: "Z".toList := by
  refine ⟨by decide, by decide, by decide, by decide, by decide⟩

/-- C7 amended: a match whose trimmed name fails the identifier rule
never yields a declaration (every declared name passes the rule), and
when the content declares no variable at all, substitute_variables
returns the content byte-for-byte unchanged for every values map — in
particular every invalid occurrence is left untouched.  An invalid
occurrence may still be rewritten when it lies inside the matched text
of a declared variable's substitution pattern. -/
theorem claim_C7_amended_invalid_names_dropped (content : List Char)
    (values : List (List Char × List Char)) :
    (∀ v ∈ detect_variables content, validName v.name = true) ∧
    (detect_variables content = [] →
      substitute_variables content values = Except.ok content) := by
  constructor
  · intro v hv
    exact detectAux_valid (scanMatches content) [] v hv
  · intro h
    rw [substitute_eq_resolve, h]
    rfl

/-- C10 helper: when one declared variable has neither value nor default
and every other declared variable resolves, the resolution loop fails
with precisely that variable's name. -/
theorem resolveAll_unique_fail (values : List (List Char × List Char)) :
    ∀ ds name, (⟨name, none⟩ : VarDecl) ∈ ds →
      lookupVal values name = none →
      (∀ v ∈ ds, v.name ≠ name →
        lookupVal values v.name ≠ none ∨ v.default ≠ none) →
      (ds.map VarDecl.name).Nodup →
      resolveAll values ds = Except.error name := by
  intro ds
  induction ds with
  | nil =>
    intro name h1 _ _ _
    cases h1
  | cons v vs ih =>
    intro name h1 h2 h3 hnd
    by_cases hv : v.name = name
    · have hvd : v.default = none := by
        cases hdd : v.default with
        | none => rfl
        | some d =>
          have hne : (⟨name, none⟩ : VarDecl) ≠ v := by
            intro he
            rw [← he] at hdd
            cases hdd
          have hmemvs : (⟨name, none⟩ : VarDecl) ∈ vs := by
            cases List.mem_cons.mp h1 with
            | inl h => exact absurd h hne
            | inr h => exact h
          have hin : name ∈ vs.map VarDecl.name :=
            List.mem_map.mpr ⟨⟨name, none⟩, hmemvs, rfl⟩
          have hnotin := (List.nodup_cons.mp hnd).1
          rw [hv] at hnotin
          exact absurd hin hnotin
      have hl : lookupVal values v.name = none := by
        rw [hv]
        exact h2
      rw [resolveAll.eq_def]
      simp only [hl, hvd]
      rw [hv]
    · have h1vs : (⟨name, none⟩ : VarDecl) ∈ vs := by
        cases List.mem_cons.mp h1 with
        | inl he =>
          have : name = v.name := congrArg VarDecl.name he
          exact absurd this.symm hv
        | inr h => exact h
      have ihvs := ih name h1vs h2
        (fun w hw hwn => h3 w (List.mem_cons_of_mem _ hw) hwn)
        (List.nodup_cons.mp hnd).2
      have hres := h3 v (List.mem_cons_self _ _) hv
      cases hl : lookupVal values v.name with
      | some x => simp only [resolveAll, hl, ihvs, except_map_error]
      | none =>
        cases hdd : v.default with
        | some d => simp only [resolveAll, hl, hdd, ihvs, except_map_error]
        | none =>
          cases hres with
          | inl h => exact absurd hl h
          | inr h => exact absurd hdd h

/-- C10: when a name's recorded declaration has no default (its first
occurrence carried none, later defaults being ignored by first-wins
deduplication), the values map lacks the name, and every other declared
variable resolves, substitute_variables raises the missing-value error
naming exactly that variable. -/
theorem claim_C10_later_default_never_used (content : List Char)
    (values : List (List Char × List Char)) (name : List Char)
    (h1 : (⟨name, none⟩ : VarDecl) ∈ detect_variables content)
    (h2 : lookupVal values name = none)
    (h3 : ∀ v ∈ detect_variables content, v.name ≠ name →
      lookupVal values v.name ≠ none ∨ v.default ≠ none) :
    substitute_variables content values = Except.error name := by
  rw [substitute_eq_resolve,
    resolveAll_unique_fail values (detect_variables content) name h1 h2 h3
      (detect_variables_names_nodup content),
    except_map_error]

/-- C10 witness: the first occurrence of x carries no default, the later
occurrence carries 5; with no value provided the substitution fails
naming x. -/
theorem claim_C10_later_default_never_used_witness :
    substitute_variables "\x7b\x7bx\x7d\x7d ... \x7b\x7bx:5\x7d\x7d".toList [] =
      Except.error "x".toList :=
  claim_C10_later_default_never_used
    "\x7b\x7bx\x7d\x7d ... \x7b\x7bx:5\x7d\x7d".toList [] "x".toList
    (by decide) (by decide) (by decide)

